import Mathlib

/-!
Shallow embedding of the `time32` package (file `ticker.go`).

Machine integers are modelled as follows:
* `uint64` values (the packed `wall` word) are `Nat`, kept below `2^64` by the
  operations themselves; bit-level operations of the source are translated to
  the equivalent arithmetic on `Nat` (`x & (2^k - 1)` is `x % 2^k`,
  `x >> k` is `x / 2^k`, an `or` of bit-disjoint fields is `+`).
* `int64` values are `Int`; every operation that can wrap in Go is followed by
  an explicit reduction `wrap64` into `[-2^63, 2^63)`.
* `int32` values are `Int`; at the places the source uses `int32` arithmetic
  the operands are provably inside the `int32` range, so no reduction is done
  (noted at each spot).
-/

namespace time32

/-- Reduction of an integer into the `int64` range, i.e. the result of a
wrapping (two's-complement) Go `int64` computation whose exact value is `x`. -/
def wrap64 (x : Int) : Int := (x + 2^63) % 2^64 - 2^63

/-- Go conversion `uint64(x)` of an `int64` value `x`: reinterpretation of the
two's-complement bits, i.e. `x` modulo `2^64` as a natural number. -/
def u64 (x : Int) : Nat := (x % 2^64).toNat

/-- Constant `secondsPerDay` from the source. -/
def secondsPerDay : Int := 24 * 60 * 60

/-- Constant `wallToInternal`: seconds from Jan 1 year 1 to Jan 1 year 1885. -/
def wallToInternal : Int := (1884*365 + 1884/4 - 1884/100 + 1884/400) * secondsPerDay

/-- Constant `unixToInternal`: seconds from Jan 1 year 1 to Jan 1 year 1970. -/
def unixToInternal : Int := (1969*365 + 1969/4 - 1969/100 + 1969/400) * secondsPerDay

/-- Constant `internalToUnix = -unixToInternal`. -/
def internalToUnix : Int := -unixToInternal

/-- Constant `minWall = wallToInternal` (year 1885). -/
def minWall : Int := wallToInternal

/-- Constant `maxWall = wallToInternal + (1<<33 - 1)` (year 2157). -/
def maxWall : Int := wallToInternal + (2^33 - 1)

/-- Constant `nsecShift = 30`. -/
def nsecShift : Nat := 30

/-- Constant `hasMonotonic = 1 << 63`, the flag bit of the packed word. -/
def hasMonotonic : Nat := 2^63

/-- Go type `Duration = int64`, a count of nanoseconds.  The alias is kept
for the namespace of `Duration.Round`; binders below use `Int` directly. -/
abbrev Duration := Int

/-- Constant `Second = 1e9` nanoseconds. -/
def Second : Int := 1000000000

/-- Constant `minDuration = -1 << 63`. -/
def minDuration : Int := -(2^63)

/-- Constant `maxDuration = 1<<63 - 1`. -/
def maxDuration : Int := 2^63 - 1

/-- The struct `Time`. `wall` packs (from high to low) a 1-bit `hasMonotonic`
flag, a 33-bit seconds field and a 30-bit nanoseconds field; `ext` holds the
full seconds (flag clear) or the monotonic reading (flag set). -/
structure Time where
  wall : Nat
  ext : Int
deriving DecidableEq, Repr

/-- Source `t.nsec() = int32(t.wall & nsecMask)`: the low 30 bits of `wall`.
The value is below `2^30 < 2^31`, so the `int32` conversion is exact. -/
def Time.nsec (t : Time) : Int := (t.wall % 2^30 : Nat)

/-- The test `t.wall & hasMonotonic != 0`: bit 63 of the packed word. -/
def Time.hasMono (t : Time) : Bool := t.wall / 2^63 % 2 = 1

/-- The packed 33-bit seconds field `int64(t.wall << 1 >> (nsecShift+1))`:
bits 30..62 of `wall`.  The value is below `2^33 < 2^63`, so the `int64`
conversion is exact. -/
def Time.packedSec (t : Time) : Int := (t.wall / 2^30 % 2^33 : Nat)

/-- Source `t.sec()`: seconds since Jan 1 year 1. -/
def Time.sec (t : Time) : Int :=
  if t.hasMono then wallToInternal + t.packedSec else t.ext

/-- Source `t.unixSec() = t.sec() + internalToUnix` (int64 addition). -/
def Time.unixSec (t : Time) : Int := wrap64 (t.sec + internalToUnix)

/-- Source `t.stripMono()`: clears the flag, moving the seconds to `ext`. -/
def Time.stripMono (t : Time) : Time :=
  if t.hasMono then { wall := t.wall % 2^30, ext := t.sec } else t

/-- Source `t.addSec(d)`: adds `d` seconds. In the flag-set branch the source
writes `t.wall&nsecMask | uint64(dsec)<<nsecShift | hasMonotonic`, an or of
bit-disjoint fields, written here as a sum. -/
def Time.addSec (t : Time) (d : Int) : Time :=
  if t.hasMono then
    let sec : Int := t.packedSec
    let dsec : Int := wrap64 (sec + d)
    if 0 ≤ dsec ∧ dsec ≤ 2^33 - 1 then
      { t with wall := t.wall % 2^30 + dsec.toNat * 2^30 + hasMonotonic }
    else
      -- Wall second now out of range for packed field.  Move to ext.
      let t' := t.stripMono
      { t' with ext := wrap64 (t'.ext + d) }
  else
    { t with ext := wrap64 (t.ext + d) }

/-- Source `t.After(u)`. -/
def Time.After (t u : Time) : Bool :=
  if t.hasMono && u.hasMono then decide (u.ext < t.ext)
  else
    let ts := t.sec
    let us := u.sec
    decide (us < ts ∨ (ts = us ∧ u.nsec < t.nsec))

/-- Source `t.Before(u)`. -/
def Time.Before (t u : Time) : Bool :=
  if t.hasMono && u.hasMono then decide (t.ext < u.ext)
  else decide (t.sec < u.sec ∨ (t.sec = u.sec ∧ t.nsec < u.nsec))

/-- Source `t.Equal(u)`. -/
def Time.Equal (t u : Time) : Bool :=
  if t.hasMono && u.hasMono then decide (t.ext = u.ext)
  else decide (t.sec = u.sec ∧ t.nsec = u.nsec)

/-- The opening lines of `t.Add(d)`: `dsec := int64(d / 1e9)`,
`nsec := t.nsec() + int32(d%1e9)` followed by the carry/borrow
normalization of `nsec` into `[0, 1e9)` adjusting `dsec`.  This is `int32`
arithmetic in Go; its operands satisfy `0 ≤ tnsec < 2^30` and
`|d % 1e9| < 1e9`, so every intermediate value is inside the `int32` range
and the arithmetic is exact.  Returns the adjusted `(dsec, nsec)`. -/
def addNorm (tnsec d : Int) : Int × Int :=
  let dsec : Int := Int.tdiv d 1000000000
  let nsec : Int := tnsec + Int.tmod d 1000000000
  if 1000000000 ≤ nsec then (dsec + 1, nsec - 1000000000)
  else if nsec < 0 then (dsec - 1, nsec + 1000000000)
  else (dsec, nsec)

/-- Source `t.Add(d)`, using `addNorm` for the opening normalization.
The wall write `t.wall&^nsecMask | uint64(nsec)` clears the low 30 bits and
ors in `nsec` (which is in `[0, 2^30)` after normalization). -/
def Time.Add (t : Time) (d : Int) : Time :=
  let p : Int × Int := addNorm t.nsec d
  let t1 : Time := { t with wall := t.wall / 2^30 * 2^30 + p.2.toNat }
  let t2 := t1.addSec p.1
  if t2.hasMono then
    let te := wrap64 (t2.ext + d)
    if (d < 0 ∧ t2.ext < te) ∨ (0 < d ∧ te < t2.ext) then
      -- Monotonic clock reading now out of range; degrade to wall-only.
      t2.stripMono
    else { t2 with ext := te }
  else t2

/-- Source `t.Sub(u)`.  In the wall branch the source computes
`Duration(t.sec()-u.sec())*Second + Duration(t.nsec()-u.nsec())` with wrapping
`int64` steps; `wrap64` of the exact composite value is the same number. -/
def Time.Sub (t u : Time) : Int :=
  if t.hasMono && u.hasMono then
    let te := t.ext
    let ue := u.ext
    let d : Int := wrap64 (te - ue)
    if d < 0 ∧ ue < te then maxDuration      -- t - u is positive out of range
    else if 0 < d ∧ te < ue then minDuration -- t - u is negative out of range
    else d
  else
    let d : Int := wrap64 ((t.sec - u.sec) * Second + (t.nsec - u.nsec))
    -- Check for overflow or underflow.
    if (u.Add d).Equal t then d
    else if t.Before u then minDuration
    else maxDuration

/-- Source `unixTime(sec, nsec) = Time{uint64(nsec), sec + unixToInternal}`. -/
def unixTime (sec : Int) (nsec : Int) : Time :=
  { wall := u64 nsec, ext := wrap64 (sec + unixToInternal) }

/-- Source constructor `Unix(sec, nsec)`.  `nsec - n*1e9` is exact `int64`
arithmetic (`|n * 1e9| ≤ |nsec|`, and the difference is in `(-1e9, 1e9)`). -/
def Unix (sec nsec : Int) : Time :=
  if nsec < 0 ∨ 1000000000 ≤ nsec then
    let n := Int.tdiv nsec 1000000000
    let sec1 := wrap64 (sec + n)
    let nsec1 := nsec - n * 1000000000
    if nsec1 < 0 then unixTime (wrap64 (sec1 - 1)) (nsec1 + 1000000000)
    else unixTime sec1 nsec1
  else unixTime sec nsec

/-- Source `lessThanHalf(x, y)`: `uint64(x)+uint64(x) < uint64(y)` with
wrapping `uint64` addition. -/
def lessThanHalf (x y : Int) : Bool :=
  decide ((u64 x + u64 x) % 2^64 < u64 y)

/-- Source `Duration.Round(m)`.  `d + r` (negative branch) and `d - r`
(non-negative branch) are exact: there `0 ≤ r < m` and the result lies
between `d` and `0`.  The away-rounding candidates wrap, hence `wrap64`. -/
def Duration.Round (d m : Int) : Int :=
  if m ≤ 0 then d
  else
    let r := Int.tmod d m
    if d < 0 then
      let r' := -r
      if lessThanHalf r' m then d + r'
      else
        let d1 := wrap64 (d - m + r')
        if d1 < d then d1 else minDuration -- overflow
    else
      if lessThanHalf r m then d - r
      else
        let d1 := wrap64 (d + m - r)
        if d < d1 then d1 else maxDuration -- overflow

/-- The first loop of the general case of `div`: `for d1>>63 != 1 { d1 <<= 1 }`.
The argument starts as `uint64(d)` with `d ≥ 1`, so at most 63 shifts are
needed; `fuel = 64` always suffices. -/
def divShift : Nat → Nat → Nat
  | 0, d1 => d1
  | fuel+1, d1 => if d1 / 2^63 ≠ 1 then divShift fuel (d1 * 2 % 2^64) else d1

/-- The subtract-and-shift loop of the general case of `div`, operating on the
128-bit value `u1:u0` and divisor `d1:d0`; `dd = uint64(d)`.  The divisor is
shifted right once per round and the loop exits when it returns to `dd`, so at
most `129` rounds run; `fuel = 200` always suffices.  Returns `(qmod2, u0)`. -/
def divLoop : Nat → Nat → Nat → Nat → Nat → Nat → Nat × Nat
  | 0, _, u0, _, _, _ => (0, u0)
  | fuel+1, u1, u0, d1, d0, dd =>
    let sub : Bool := decide (d1 < u1 ∨ (u1 = d1 ∧ d0 ≤ u0))
    let q : Nat := if sub then 1 else 0
    let u0' : Nat := if sub then (u0 + (2^64 - d0 % 2^64)) % 2^64 else u0
    let u1' : Nat :=
      if sub then
        (((if u0 < u0' then (u1 + (2^64 - 1)) % 2^64 else u1) + (2^64 - d1 % 2^64)) % 2^64)
      else u1
    if d1 = 0 ∧ d0 = dd then (q, u0')
    else divLoop fuel u1' u0' (d1 / 2) (d0 / 2 + d1 % 2 * 2^63) dd

/-- Source `div(t, d)`: quotient parity and remainder of `t` divided by `d`.
`Second % (d+d)` is evaluated only under `d < Second`, so `d+d` is exact.
Go's `& 1` on a (possibly negative) quotient is its low two's-complement bit,
i.e. the Euclidean `% 2`.  In the `neg` adjustment `d - r` is exact `int64`
arithmetic (`0 ≤ r < d` there for in-range fields).  The general case builds
the 128-bit nanosecond count with wrapping `uint64` steps. -/
def Time.div (t : Time) (d : Int) : Int × Int :=
  let nsec0 := t.nsec
  let sec0 := t.sec
  let trip : Bool × Int × Int :=
    if sec0 < 0 then
      -- Operate on absolute value.
      let sec1 := wrap64 (-sec0)
      let nsec1 := -nsec0
      if nsec1 < 0 then (true, wrap64 (sec1 - 1), nsec1 + 1000000000)
      else (true, sec1, nsec1)
    else (false, sec0, nsec0)
  let neg := trip.1
  let sec := trip.2.1
  let nsec := trip.2.2
  let qr : Int × Int :=
    if d < Second ∧ Int.tmod Second (d + d) = 0 then
      -- Special case: 2d divides 1 second.
      ((Int.tdiv nsec d) % 2, Int.tmod nsec d)
    else if Int.tmod d Second = 0 then
      -- Special case: d is a multiple of 1 second.
      let d1 := Int.tdiv d Second
      ((Int.tdiv sec d1) % 2, wrap64 (Int.tmod sec d1 * Second + nsec))
    else
      -- General case: compute nanoseconds as a 128-bit number.
      let secu := u64 sec
      let tmp := secu / 2^32 * 1000000000 % 2^64
      let u1a := tmp / 2^32
      let u0a := tmp * 2^32 % 2^64
      let tmp2 := secu % 2^32 * 1000000000 % 2^64
      let u0b := (u0a + tmp2) % 2^64
      let u1b := if u0b < u0a then (u1a + 1) % 2^64 else u1a
      let u0c := (u0b + u64 nsec) % 2^64
      let u1c := if u0c < u0b then (u1b + 1) % 2^64 else u1b
      let res := divLoop 200 u1c u0c (divShift 64 (u64 d)) 0 (u64 d)
      ((res.1 : Int), wrap64 ((res.2 : Nat) : Int))
  if neg ∧ qr.2 ≠ 0 then (1 - qr.1, d - qr.2) else qr

/-- Source `t.Truncate(d)`.  `-r` is exact unless `r = minDuration`
(impossible for in-range fields), modelled faithfully with `wrap64`. -/
def Time.Truncate (t : Time) (d : Int) : Time :=
  let t1 := t.stripMono
  if d ≤ 0 then t1
  else
    let r := (t1.div d).2
    t1.Add (wrap64 (-r))

/-- Source `t.Round(d)`; halfway values round up.  `d - r` is exact for
in-range fields, modelled faithfully with `wrap64`. -/
def Time.Round (t : Time) (d : Int) : Time :=
  let t1 := t.stripMono
  if d ≤ 0 then t1
  else
    let r := (t1.div d).2
    if lessThanHalf r d then t1.Add (wrap64 (-r))
    else t1.Add (wrap64 (d - r))

/-- Go type `Time32 = uint32`: seconds since the Unix epoch.  The alias is
kept for the namespace of `Time32.AddDate`; binders use `Nat` directly. -/
abbrev Time32 := Nat

/-- Source `t.AddDate(days) = Time32(int(t) + days*86400)`: `int` (64-bit)
wrapping product and sum, then conversion to `uint32` (reduction mod `2^32`). -/
def Time32.AddDate (t : Nat) (days : Int) : Nat :=
  let v := wrap64 ((t : Int) + wrap64 (days * 86400))
  (v % 2^32).toNat

/-- Semantic wall-clock reading of an instant, in nanoseconds since the zero
time: `sec * 1e9 + nsec`.  Used to state the arithmetic claims. -/
def Time.wallTotal (t : Time) : Int := t.sec * 1000000000 + t.nsec

/-- Modelled from the spec for comparison with `Duration.Round`: the multiple
of `m` nearest to `d` with ties broken away from zero, in exact (unbounded)
integer arithmetic.  `roundNearestAway_spec` below proves it is a multiple of
`m` within half a granule of `d`, rounding a tie away from zero. -/
def roundNearestAway (d m : Int) : Int :=
  let r := Int.tmod d m
  if d < 0 then
    if 2 * (-r) < m then d - r else d - m - r
  else
    if 2 * r < m then d - r else d + m - r

theorem hasMono_iff (t : Time) : t.hasMono = true ↔ t.wall / 2^63 % 2 = 1 := by
  simp [Time.hasMono]

theorem hasMono_false_iff (t : Time) : t.hasMono = false ↔ ¬ t.wall / 2^63 % 2 = 1 := by
  simp [Time.hasMono]

theorem nsec_nonneg (t : Time) : 0 ≤ t.nsec := by
  unfold Time.nsec
  exact Int.natCast_nonneg _

theorem nsec_lt_pow (t : Time) : t.nsec < 2^30 := by
  have h : t.wall % 2^30 < 2^30 := Nat.mod_lt _ (by norm_num)
  simpa [Time.nsec] using Int.ofNat_lt.mpr h

theorem packedSec_nonneg (t : Time) : 0 ≤ t.packedSec := by
  unfold Time.packedSec
  exact Int.natCast_nonneg _

theorem packedSec_lt_pow (t : Time) : t.packedSec < 2^33 := by
  have h : t.wall / 2^30 % 2^33 < 2^33 := Nat.mod_lt _ (by norm_num)
  simpa [Time.packedSec] using Int.ofNat_lt.mpr h

theorem wrap64_as_sub (x : Int) : wrap64 x = x - 2^64 * ((x + 2^63) / 2^64) := by
  simp only [wrap64, Int.emod_def]
  ring

theorem wrap64_bounds (x : Int) : -2^63 ≤ wrap64 x ∧ wrap64 x < 2^63 := by
  simp only [wrap64]
  omega

theorem wrap64_eq_self {x : Int} (h1 : -2^63 ≤ x) (h2 : x < 2^63) : wrap64 x = x := by
  simp only [wrap64]
  omega

theorem neg_tmod (a b : Int) : (-a).tmod b = -(a.tmod b) := by
  simp only [Int.tmod_def, Int.neg_tdiv]
  ring

theorem tmod_bounds (d : Int) {m : Int} (hm : 0 < m) : -m < Int.tmod d m ∧ Int.tmod d m < m := by
  constructor
  · rcases le_or_lt 0 d with hd | hd
    · have := Int.tmod_nonneg m hd
      omega
    · have h1 : Int.tmod (-d) m < m := Int.tmod_lt_of_pos _ hm
      have h2 : (-d).tmod m = -(d.tmod m) := neg_tmod d m
      omega
  · exact Int.tmod_lt_of_pos _ hm

theorem tmod_tdiv_id (d m : Int) : m * Int.tdiv d m + Int.tmod d m = d := by
  have := Int.tmod_add_tdiv d m
  omega

theorem stripMono_hasMono (t : Time) : t.stripMono.hasMono = false := by
  unfold Time.stripMono
  split
  · rw [hasMono_false_iff]
    dsimp only
    have h30 : t.wall % 2^30 < 2^30 := Nat.mod_lt _ (by norm_num)
    omega
  · next h => simpa using h

theorem stripMono_sec (t : Time) : t.stripMono.sec = t.sec := by
  unfold Time.stripMono
  split
  · unfold Time.sec
    rw [if_neg]
    intro hcon
    rw [hasMono_iff] at hcon
    dsimp only at hcon
    have h30 : t.wall % 2^30 < 2^30 := Nat.mod_lt _ (by norm_num)
    omega
  · rfl

theorem stripMono_nsec (t : Time) : t.stripMono.nsec = t.nsec := by
  unfold Time.stripMono
  split
  · unfold Time.nsec
    dsimp only
    congr 1
    exact Nat.mod_mod_of_dvd _ dvd_rfl
  · rfl

theorem stripMono_ext_of_not_mono {t : Time} (h : t.hasMono = false) :
    t.stripMono = t := by
  unfold Time.stripMono
  simp [h]

theorem sec_of_not_mono {t : Time} (h : t.hasMono = false) : t.sec = t.ext := by
  unfold Time.sec
  simp [h]

theorem mk_packed_fields (low p : Nat) (e : Int) (hlow : low < 2^30) (hp : p < 2^33) :
    (Time.mk (low + p * 2^30 + hasMonotonic) e).hasMono = true ∧
    (Time.mk (low + p * 2^30 + hasMonotonic) e).nsec = (low : Int) ∧
    (Time.mk (low + p * 2^30 + hasMonotonic) e).packedSec = (p : Int) := by
  unfold Time.hasMono Time.nsec Time.packedSec hasMonotonic
  dsimp only
  refine ⟨?_, ?_, ?_⟩
  · rw [decide_eq_true_eq]
    omega
  · omega
  · omega

theorem addSec_nsec (t : Time) (d : Int) : (t.addSec d).nsec = t.nsec := by
  unfold Time.addSec
  dsimp only
  split
  · next hm =>
    split
    · next hrange =>
      have h30 : t.wall % 2^30 < 2^30 := Nat.mod_lt _ (by norm_num)
      have hp : (wrap64 (t.packedSec + d)).toNat < 2^33 := by
        have := wrap64_bounds (t.packedSec + d)
        omega
      have := (mk_packed_fields (t.wall % 2^30) (wrap64 (t.packedSec + d)).toNat t.ext h30 hp).2.1
      rw [this]
      rfl
    · have h := stripMono_nsec t
      unfold Time.nsec at h ⊢
      exact h
  · rfl

theorem addSec_not_mono {t : Time} (h : t.hasMono = false) (d : Int) :
    (t.addSec d).hasMono = false ∧ (t.addSec d).ext = wrap64 (t.ext + d) ∧
    (t.addSec d).wall = t.wall := by
  unfold Time.addSec
  rw [if_neg (by simp [h])]
  exact ⟨h, rfl, rfl⟩

theorem addSec_sec_emod (t : Time) (d : Int) :
    (t.addSec d).sec % 2^64 = (t.sec + d) % 2^64 := by
  unfold Time.addSec
  dsimp only
  split
  · next hm =>
    split
    · next hrange =>
      have h30 : t.wall % 2^30 < 2^30 := Nat.mod_lt _ (by norm_num)
      have hp : (wrap64 (t.packedSec + d)).toNat < 2^33 := by
        have := wrap64_bounds (t.packedSec + d)
        omega
      have hmk := mk_packed_fields (t.wall % 2^30) (wrap64 (t.packedSec + d)).toNat t.ext h30 hp
      unfold Time.sec
      rw [if_pos hmk.1, hmk.2.2, if_pos hm]
      have hw := wrap64_as_sub (t.packedSec + d)
      have hb := wrap64_bounds (t.packedSec + d)
      omega
    · next hrange =>
      have hsm : (t.stripMono).hasMono = false := stripMono_hasMono t
      have hsec : (t.stripMono).ext = t.sec := by
        have h1 := stripMono_sec t
        rw [sec_of_not_mono hsm] at h1
        exact h1
      have hno : (Time.mk (t.stripMono).wall (wrap64 ((t.stripMono).ext + d))).hasMono = false := hsm
      rw [sec_of_not_mono hno]
      dsimp only
      rw [hsec]
      have hw := wrap64_as_sub (t.sec + d)
      have hb := wrap64_bounds (t.sec + d)
      omega
  · next hm =>
    have hm' : t.hasMono = false := by
      rcases h : t.hasMono with _ | _
      · rfl
      · exact absurd h hm
    have hno : (Time.mk t.wall (wrap64 (t.ext + d))).hasMono = false := hm'
    rw [sec_of_not_mono hno]
    dsimp only
    rw [sec_of_not_mono hm']
    have hw := wrap64_as_sub (t.ext + d)
    have hb := wrap64_bounds (t.ext + d)
    omega

theorem addNorm_spec (tn d : Int) (h0 : 0 ≤ tn) (h1 : tn < 2^30) :
    0 ≤ (addNorm tn d).2 ∧ (addNorm tn d).2 < 2^30 ∧
    1000000000 * (addNorm tn d).1 + (addNorm tn d).2 = tn + d := by
  unfold addNorm
  have hid := tmod_tdiv_id d 1000000000
  have hb := tmod_bounds d (show (0:Int) < 1000000000 by norm_num)
  dsimp only
  split
  · refine ⟨by omega, by omega, by omega⟩
  · split
    · refine ⟨by omega, by omega, by omega⟩
    · refine ⟨by omega, by omega, by omega⟩

theorem addNorm_eq (tn d : Int) (h0 : 0 ≤ tn) (h1 : tn < 1000000000) :
    (addNorm tn d).1 = (tn + d) / 1000000000 ∧
    (addNorm tn d).2 = (tn + d) % 1000000000 := by
  unfold addNorm
  have hid := tmod_tdiv_id d 1000000000
  have hb := tmod_bounds d (show (0:Int) < 1000000000 by norm_num)
  dsimp only
  split
  · refine ⟨by omega, by omega⟩
  · split
    · refine ⟨by omega, by omega⟩
    · refine ⟨by omega, by omega⟩

theorem sec_set_ext_of_mono {t : Time} (h : t.hasMono = true) (e : Int) :
    (Time.mk t.wall e).sec = t.sec := by
  have h' : (Time.mk t.wall e).hasMono = true := h
  unfold Time.sec
  rw [if_pos h', if_pos h]
  rfl

theorem Add_fields (t : Time) (d : Int) :
    (t.Add d).sec % 2^64 = (t.sec + (addNorm t.nsec d).1) % 2^64 ∧
    (t.Add d).nsec = (addNorm t.nsec d).2 := by
  have hns := addNorm_spec t.nsec d (nsec_nonneg t) (nsec_lt_pow t)
  unfold Time.Add
  dsimp only
  set p := addNorm t.nsec d with hp
  set t1 : Time := { t with wall := t.wall / 2^30 * 2^30 + p.2.toNat } with ht1
  have ht1nsec : t1.nsec = p.2 := by
    rw [ht1]
    unfold Time.nsec
    dsimp only
    omega
  have ht1sec : t1.sec = t.sec := by
    have hmono : t1.hasMono = t.hasMono := by
      unfold Time.hasMono
      rw [ht1]
      dsimp only
      rw [decide_eq_decide]
      omega
    have hpk : t1.packedSec = t.packedSec := by
      unfold Time.packedSec
      rw [ht1]
      dsimp only
      omega
    have hext : t1.ext = t.ext := by rw [ht1]
    unfold Time.sec
    rw [hmono, hpk, hext]
  set t2 := t1.addSec p.1 with ht2
  have h2sec : t2.sec % 2^64 = (t.sec + p.1) % 2^64 := by
    rw [ht2, addSec_sec_emod, ht1sec]
  have h2nsec : t2.nsec = p.2 := by rw [ht2, addSec_nsec, ht1nsec]
  split
  · next hm =>
    split
    · rw [stripMono_sec, stripMono_nsec]
      exact ⟨h2sec, h2nsec⟩
    · exact ⟨by rw [sec_set_ext_of_mono hm]; exact h2sec, h2nsec⟩
  · exact ⟨h2sec, h2nsec⟩

theorem Add_not_mono {t : Time} (h : t.hasMono = false) (d : Int) :
    (t.Add d).hasMono = false ∧
    (t.Add d).ext = wrap64 (t.ext + (addNorm t.nsec d).1) := by
  have hns := addNorm_spec t.nsec d (nsec_nonneg t) (nsec_lt_pow t)
  unfold Time.Add
  dsimp only
  set p := addNorm t.nsec d with hp
  set t1 : Time := { t with wall := t.wall / 2^30 * 2^30 + p.2.toNat } with ht1
  have h1m : t1.hasMono = false := by
    rw [hasMono_false_iff] at h ⊢
    rw [ht1]
    dsimp only
    omega
  have h1e : t1.ext = t.ext := by rw [ht1]
  have h2 := addSec_not_mono h1m p.1
  rw [if_neg (by simp [h2.1])]
  exact ⟨h2.1, by rw [h2.2.1, h1e]⟩

theorem wallset_fields (t : Time) (n : Nat) (hn : n < 2^30) :
    (Time.mk (t.wall / 2^30 * 2^30 + n) t.ext).hasMono = t.hasMono ∧
    (Time.mk (t.wall / 2^30 * 2^30 + n) t.ext).packedSec = t.packedSec ∧
    (Time.mk (t.wall / 2^30 * 2^30 + n) t.ext).nsec = (n : Int) := by
  refine ⟨?_, ?_, ?_⟩
  · unfold Time.hasMono
    dsimp only
    rw [decide_eq_decide]
    omega
  · unfold Time.packedSec
    dsimp only
    omega
  · unfold Time.nsec
    dsimp only
    omega

theorem addSec_mono_kept {t : Time} (s : Int) (hm : t.hasMono = true)
    (h : 0 ≤ wrap64 (t.packedSec + s) ∧ wrap64 (t.packedSec + s) ≤ 2^33 - 1) :
    (t.addSec s).hasMono = true ∧ (t.addSec s).ext = t.ext := by
  unfold Time.addSec
  dsimp only
  rw [if_pos hm, if_pos h]
  have h30 : t.wall % 2^30 < 2^30 := Nat.mod_lt _ (by norm_num)
  have hp : (wrap64 (t.packedSec + s)).toNat < 2^33 := by
    have := wrap64_bounds (t.packedSec + s)
    omega
  exact ⟨(mk_packed_fields (t.wall % 2^30) (wrap64 (t.packedSec + s)).toNat t.ext h30 hp).1, rfl⟩

theorem addSec_mono_dropped {t : Time} (s : Int) (hm : t.hasMono = true)
    (h : ¬(0 ≤ wrap64 (t.packedSec + s) ∧ wrap64 (t.packedSec + s) ≤ 2^33 - 1)) :
    (t.addSec s).hasMono = false := by
  unfold Time.addSec
  dsimp only
  rw [if_pos hm, if_neg h]
  exact stripMono_hasMono t

theorem Add_mono_kept {t : Time} (d : Int) (hm : t.hasMono = true)
    (hp : 0 ≤ wrap64 (t.packedSec + (addNorm t.nsec d).1) ∧
          wrap64 (t.packedSec + (addNorm t.nsec d).1) ≤ 2^33 - 1)
    (hte : -2^63 ≤ t.ext + d ∧ t.ext + d < 2^63) :
    (t.Add d).hasMono = true ∧ (t.Add d).ext = t.ext + d := by
  have hns := addNorm_spec t.nsec d (nsec_nonneg t) (nsec_lt_pow t)
  unfold Time.Add
  dsimp only
  set p := addNorm t.nsec d with hp0
  have hn : p.2.toNat < 2^30 := by omega
  have hw := wallset_fields t p.2.toNat hn
  set t1 : Time := { t with wall := t.wall / 2^30 * 2^30 + p.2.toNat } with ht1
  have h1m : t1.hasMono = true := hw.1.trans hm
  have h1pk : t1.packedSec = t.packedSec := hw.2.1
  have h1e : t1.ext = t.ext := by rw [ht1]
  have h2 := addSec_mono_kept p.1 h1m (by rw [h1pk]; exact hp)
  set t2 := t1.addSec p.1 with ht2
  have h2m : t2.hasMono = true := h2.1
  have h2e : t2.ext = t.ext := h2.2.trans h1e
  have hcond : ¬((d < 0 ∧ t2.ext < wrap64 (t2.ext + d)) ∨ (0 < d ∧ wrap64 (t2.ext + d) < t2.ext)) := by
    rw [h2e, wrap64_eq_self hte.1 hte.2]
    omega
  rw [if_pos h2m, if_neg hcond]
  exact ⟨h2m, by dsimp only; rw [h2e, wrap64_eq_self hte.1 hte.2]⟩

theorem Add_mono_drop_packed {t : Time} (d : Int) (hm : t.hasMono = true)
    (hp : ¬(0 ≤ wrap64 (t.packedSec + (addNorm t.nsec d).1) ∧
            wrap64 (t.packedSec + (addNorm t.nsec d).1) ≤ 2^33 - 1)) :
    (t.Add d).hasMono = false := by
  have hns := addNorm_spec t.nsec d (nsec_nonneg t) (nsec_lt_pow t)
  unfold Time.Add
  dsimp only
  set p := addNorm t.nsec d with hp0
  have hn : p.2.toNat < 2^30 := by omega
  have hw := wallset_fields t p.2.toNat hn
  set t1 : Time := { t with wall := t.wall / 2^30 * 2^30 + p.2.toNat } with ht1
  have h1m : t1.hasMono = true := hw.1.trans hm
  have h1pk : t1.packedSec = t.packedSec := hw.2.1
  have h2m := addSec_mono_dropped p.1 h1m (by rw [h1pk]; exact hp)
  set t2 := t1.addSec p.1 with ht2
  rw [if_neg (by simp [h2m])]
  exact h2m

theorem Add_mono_drop_ext {t : Time} (d : Int) (hm : t.hasMono = true)
    (hext : -2^63 ≤ t.ext ∧ t.ext < 2^63) (hd : -2^63 ≤ d ∧ d < 2^63)
    (hp : 0 ≤ wrap64 (t.packedSec + (addNorm t.nsec d).1) ∧
          wrap64 (t.packedSec + (addNorm t.nsec d).1) ≤ 2^33 - 1)
    (hte : ¬(-2^63 ≤ t.ext + d ∧ t.ext + d < 2^63)) :
    (t.Add d).hasMono = false := by
  have hns := addNorm_spec t.nsec d (nsec_nonneg t) (nsec_lt_pow t)
  unfold Time.Add
  dsimp only
  set p := addNorm t.nsec d with hp0
  have hn : p.2.toNat < 2^30 := by omega
  have hw := wallset_fields t p.2.toNat hn
  set t1 : Time := { t with wall := t.wall / 2^30 * 2^30 + p.2.toNat } with ht1
  have h1m : t1.hasMono = true := hw.1.trans hm
  have h1pk : t1.packedSec = t.packedSec := hw.2.1
  have h1e : t1.ext = t.ext := by rw [ht1]
  have h2 := addSec_mono_kept p.1 h1m (by rw [h1pk]; exact hp)
  set t2 := t1.addSec p.1 with ht2
  have h2m : t2.hasMono = true := h2.1
  have h2e : t2.ext = t.ext := h2.2.trans h1e
  have hcond : (d < 0 ∧ t2.ext < wrap64 (t2.ext + d)) ∨ (0 < d ∧ wrap64 (t2.ext + d) < t2.ext) := by
    rw [h2e]
    have hws := wrap64_as_sub (t.ext + d)
    have hwb := wrap64_bounds (t.ext + d)
    omega
  rw [if_pos h2m, if_pos hcond]
  exact stripMono_hasMono t2

/-- C2: for every pair of Instants `t` and `u`, `Before`, `After` and `Equal`
use only the monotonic readings (the `ext` fields) when both operands carry
one, and otherwise compare the wall seconds fields first and the sub-second
nanosecond fields second (lexicographically). -/
theorem comparisons_dual_path (t u : Time) :
    (t.hasMono = true ∧ u.hasMono = true →
      ((t.After u = true ↔ u.ext < t.ext) ∧
       (t.Before u = true ↔ t.ext < u.ext) ∧
       (t.Equal u = true ↔ t.ext = u.ext))) ∧
    (¬(t.hasMono = true ∧ u.hasMono = true) →
      ((t.After u = true ↔ (u.sec < t.sec ∨ (t.sec = u.sec ∧ u.nsec < t.nsec))) ∧
       (t.Before u = true ↔ (t.sec < u.sec ∨ (t.sec = u.sec ∧ t.nsec < u.nsec))) ∧
       (t.Equal u = true ↔ (t.sec = u.sec ∧ t.nsec = u.nsec)))) := by
  constructor
  · intro h
    have hb : (t.hasMono && u.hasMono) = true := by
      rw [Bool.and_eq_true]
      exact h
    simp only [Time.After, Time.Before, Time.Equal, hb, if_true, decide_eq_true_eq]
    exact ⟨trivial, trivial, trivial⟩
  · intro h
    have hb : (t.hasMono && u.hasMono) = false := by
      rcases ht : t.hasMono <;> rcases hu : u.hasMono <;> simp_all
    simp only [Time.After, Time.Before, Time.Equal, hb, Bool.false_eq_true, if_false,
      decide_eq_true_eq]
    exact ⟨trivial, trivial, trivial⟩

/-- Witness for C2 at concrete instants: one with a monotonic reading, one
without, exercising the wall-clock comparison path. -/
theorem comparisons_dual_path_inst :
    ¬((Time.mk (2^63 + 5 * 2^30 + 7) 40).hasMono = true ∧ (Time.mk 9 3).hasMono = true) ∧
    ((Time.mk (2^63 + 5 * 2^30 + 7) 40).Equal (Time.mk 9 3) = true ↔
      ((Time.mk (2^63 + 5 * 2^30 + 7) 40).sec = (Time.mk 9 3).sec ∧
       (Time.mk (2^63 + 5 * 2^30 + 7) 40).nsec = (Time.mk 9 3).nsec)) := by
  refine ⟨by decide, ?_⟩
  exact ((comparisons_dual_path (Time.mk (2^63 + 5 * 2^30 + 7) 40) (Time.mk 9 3)).2
    (by decide)).2.2

theorem wrap64_congr {a b : Int} (h : a % 2^64 = b % 2^64) : wrap64 a = wrap64 b := by
  unfold wrap64
  omega

theorem unixTime_fields (s n : Int) (h0 : 0 ≤ n) (h1 : n < 1000000000) :
    (unixTime s n).nsec = n ∧ (unixTime s n).hasMono = false ∧
    (unixTime s n).ext = wrap64 (s + unixToInternal) := by
  unfold unixTime u64 Time.nsec Time.hasMono
  dsimp only
  refine ⟨by omega, ?_, rfl⟩
  rw [decide_eq_false_iff_not]
  omega

theorem Unix_eval (s n : Int) :
    Unix s n = unixTime (wrap64 (s + n / 1000000000)) (n % 1000000000) := by
  have hid := Int.ediv_add_emod n 1000000000
  have he0 : 0 ≤ n % 1000000000 := Int.emod_nonneg n (by norm_num)
  have he1 : n % 1000000000 < 1000000000 := Int.emod_lt_of_pos n (by norm_num)
  have hti := tmod_tdiv_id n 1000000000
  have htb := tmod_bounds n (show (0:Int) < 1000000000 by norm_num)
  unfold Unix
  split
  · next hc =>
    dsimp only
    split
    · next hneg =>
      unfold unixTime
      rw [Time.mk.injEq]
      constructor
      · exact congrArg u64 (by omega)
      · apply wrap64_congr
        have w1 := wrap64_as_sub (s + Int.tdiv n 1000000000)
        have w2 := wrap64_as_sub (s + n / 1000000000)
        have w3 := wrap64_as_sub (wrap64 (s + Int.tdiv n 1000000000) - 1)
        omega
    · next hneg =>
      unfold unixTime
      rw [Time.mk.injEq]
      constructor
      · exact congrArg u64 (by omega)
      · apply wrap64_congr
        have w1 := wrap64_as_sub (s + Int.tdiv n 1000000000)
        have w2 := wrap64_as_sub (s + n / 1000000000)
        omega
  · next hc =>
    unfold unixTime
    rw [Time.mk.injEq]
    constructor
    · exact congrArg u64 (by omega)
    · apply wrap64_congr
      have w2 := wrap64_as_sub (s + n / 1000000000)
      omega

/-- C3: the constructor `Unix(sec, nsec)` normalizes any `int64` nanosecond
argument (negative or at least `1e9` included) by borrowing/carrying whole
seconds: the resulting nanosecond field is in `[0, 1e9)`, the result carries
no monotonic reading, and the instant equals the one built from the
borrow/carry-adjusted pair, e.g. `Unix 10 (-1) = Unix 9 999999999`.  The
hypothesis keeps the adjusted seconds inside `int64`, where the seconds
arithmetic is exact. -/
theorem unix_normalizes (s n : Int)
    (h : -2^63 ≤ s + n / 1000000000 ∧ s + n / 1000000000 < 2^63) :
    0 ≤ (Unix s n).nsec ∧ (Unix s n).nsec < 1000000000 ∧
    (Unix s n).hasMono = false ∧
    Unix s n = Unix (s + n / 1000000000) (n % 1000000000) ∧
    Unix 10 (-1) = Unix 9 999999999 := by
  have he0 : 0 ≤ n % 1000000000 := Int.emod_nonneg n (by norm_num)
  have he1 : n % 1000000000 < 1000000000 := Int.emod_lt_of_pos n (by norm_num)
  have h1 := Unix_eval s n
  have h2 := Unix_eval (s + n / 1000000000) (n % 1000000000)
  have hself : wrap64 (s + n / 1000000000) = s + n / 1000000000 :=
    wrap64_eq_self h.1 h.2
  have hf := unixTime_fields (wrap64 (s + n / 1000000000)) (n % 1000000000) he0 he1
  refine ⟨?_, ?_, ?_, ?_, by decide⟩
  · rw [h1, hf.1]
    exact he0
  · rw [h1, hf.1]
    exact he1
  · rw [h1]
    exact hf.2.1
  · rw [h1, h2]
    congr 1
    · rw [hself]
      have : (n % 1000000000) / 1000000000 = 0 := by omega
      rw [this, add_zero]
      exact hself.symm
    · omega

/-- Witness for C3 at `s = 10`, `n = -1`: the borrow yields nanosecond field
`999999999` and seconds `9`. -/
theorem unix_normalizes_inst :
    (-2^63 ≤ (10:Int) + (-1) / 1000000000 ∧ (10:Int) + (-1) / 1000000000 < 2^63) ∧
    (Unix 10 (-1)).nsec = 999999999 ∧
    Unix 10 (-1) = Unix ((10:Int) + (-1) / 1000000000) ((-1 : Int) % 1000000000) := by
  refine ⟨by decide, ?_, ?_⟩
  · have h := unix_normalizes 10 (-1) (by decide)
    revert h
    decide
  · exact (unix_normalizes 10 (-1) (by decide)).2.2.2.1

/-- C7: for a non-positive granularity, `Truncate` and `Round` return the
instant numerically unchanged (same seconds and nanosecond fields) with the
monotonic reading stripped; and for every granularity the result of
`Truncate` and `Round` never carries a monotonic reading. -/
theorem truncate_round_strip (t : Time) (d : Int) :
    (d ≤ 0 → (t.Truncate d).sec = t.sec ∧ (t.Truncate d).nsec = t.nsec ∧
              (t.Round d).sec = t.sec ∧ (t.Round d).nsec = t.nsec) ∧
    (t.Truncate d).hasMono = false ∧ (t.Round d).hasMono = false := by
  constructor
  · intro hd
    unfold Time.Truncate Time.Round
    dsimp only
    rw [if_pos hd, if_pos hd]
    exact ⟨stripMono_sec t, stripMono_nsec t, stripMono_sec t, stripMono_nsec t⟩
  · constructor
    · unfold Time.Truncate
      dsimp only
      split
      · exact stripMono_hasMono t
      · exact (Add_not_mono (stripMono_hasMono t) _).1
    · unfold Time.Round
      dsimp only
      split
      · exact stripMono_hasMono t
      · split
        · exact (Add_not_mono (stripMono_hasMono t) _).1
        · exact (Add_not_mono (stripMono_hasMono t) _).1

/-- Witness for C7 at a monotonic-carrying instant and granularity `-3`. -/
theorem truncate_round_strip_inst :
    ((-3:Int) ≤ 0) ∧
    ((Time.mk (2^63 + 5*2^30 + 7) 99).Truncate (-3)).sec
      = (Time.mk (2^63 + 5*2^30 + 7) 99).sec ∧
    ((Time.mk (2^63 + 5*2^30 + 7) 99).Round (-3)).hasMono = false := by
  refine ⟨by decide,
    (((truncate_round_strip (Time.mk (2^63 + 5*2^30 + 7) 99) (-3)).1 (by decide)).1),
    (truncate_round_strip (Time.mk (2^63 + 5*2^30 + 7) 99) (-3)).2.2⟩

theorem Add_nsec_range {t : Time} (h : t.nsec < 1000000000) (d : Int) :
    0 ≤ (t.Add d).nsec ∧ (t.Add d).nsec < 1000000000 := by
  have h2 := (Add_fields t d).2
  have h3 := (addNorm_eq t.nsec d (nsec_nonneg t) h).2
  rw [h2, h3]
  exact ⟨Int.emod_nonneg _ (by norm_num), Int.emod_lt_of_pos _ (by norm_num)⟩

/-- C9: the fractional-field invariant.  From operands whose nanosecond field
is in `[0, 1e9)`, every public operation (`Unix` construction, `Add`,
`Truncate`, `Round`) produces an instant whose nanosecond field is again in
`[0, 1e9)`; `Unix` needs no assumption at all. -/
theorem nsec_invariant (t : Time) (d s n : Int) (h : t.nsec < 1000000000) :
    (0 ≤ (t.Add d).nsec ∧ (t.Add d).nsec < 1000000000) ∧
    (0 ≤ (t.Truncate d).nsec ∧ (t.Truncate d).nsec < 1000000000) ∧
    (0 ≤ (t.Round d).nsec ∧ (t.Round d).nsec < 1000000000) ∧
    (0 ≤ (Unix s n).nsec ∧ (Unix s n).nsec < 1000000000) := by
  have hsm : t.stripMono.nsec < 1000000000 := by
    rw [stripMono_nsec]
    exact h
  refine ⟨Add_nsec_range h d, ?_, ?_, ?_⟩
  · unfold Time.Truncate
    dsimp only
    split
    · rw [stripMono_nsec]
      exact ⟨nsec_nonneg t, h⟩
    · exact Add_nsec_range hsm _
  · unfold Time.Round
    dsimp only
    split
    · rw [stripMono_nsec]
      exact ⟨nsec_nonneg t, h⟩
    · split
      · exact Add_nsec_range hsm _
      · exact Add_nsec_range hsm _
  · rw [Unix_eval]
    have he0 : 0 ≤ n % 1000000000 := Int.emod_nonneg n (by norm_num)
    have he1 : n % 1000000000 < 1000000000 := Int.emod_lt_of_pos n (by norm_num)
    rw [(unixTime_fields _ _ he0 he1).1]
    exact ⟨he0, he1⟩

/-- Witness for C9 at a concrete instant with nanosecond field `7`,
duration `-123456789`, and `Unix 5 (-1)`. -/
theorem nsec_invariant_inst :
    (Time.mk 7 50).nsec < 1000000000 ∧
    0 ≤ ((Time.mk 7 50).Add (-123456789)).nsec ∧
    ((Time.mk 7 50).Add (-123456789)).nsec < 1000000000 ∧
    0 ≤ (Unix 5 (-1)).nsec ∧ (Unix 5 (-1)).nsec < 1000000000 := by
  have h := nsec_invariant (Time.mk 7 50) (-123456789) 5 (-1) (by decide)
  exact ⟨by decide, h.1.1, h.1.2, h.2.2.2.1, h.2.2.2.2⟩

/-- C10: `Time32.AddDate` is day-shifting with wraparound: the result is
`int(t) + days*86400` reduced modulo `2^32` — it neither saturates nor
errors, and shifting past the representable range wraps to a smaller or
unrelated epoch value (e.g. one day past `2^32 - 1` lands at `86399`). -/
theorem addDate_wraps (t : Nat) (days : Int) :
    (Time32.AddDate t days : Int) = ((t : Int) + days * 86400) % 2^32 ∧
    Time32.AddDate (2^32 - 1) 1 = 86399 := by
  constructor
  · unfold Time32.AddDate
    dsimp only
    have w1 := wrap64_as_sub (days * 86400)
    have w2 := wrap64_as_sub ((t : Int) + wrap64 (days * 86400))
    have b1 := wrap64_bounds (days * 86400)
    have b2 := wrap64_bounds ((t : Int) + wrap64 (days * 86400))
    omega
  · decide

theorem wallToInternal_eq : wallToInternal = 59453308800 := by
  norm_num [wallToInternal, secondsPerDay]

theorem sec_of_mono {t : Time} (h : t.hasMono = true) :
    t.sec = wallToInternal + t.packedSec := by
  unfold Time.sec
  rw [if_pos h]

theorem addSec_mono_sec_exact {x : Time} (s : Int) (hm : x.hasMono = true)
    (hs : -2^62 ≤ s ∧ s ≤ 2^62) :
    (x.addSec s).sec = x.sec + s := by
  have hpk0 := packedSec_nonneg x
  have hpk1 := packedSec_lt_pow x
  have hw2i := wallToInternal_eq
  have hsecx := sec_of_mono hm
  unfold Time.addSec
  dsimp only
  rw [if_pos hm]
  split
  · next hrange =>
    have h30 : x.wall % 2^30 < 2^30 := Nat.mod_lt _ (by norm_num)
    have hb := wrap64_bounds (x.packedSec + s)
    have hp : (wrap64 (x.packedSec + s)).toNat < 2^33 := by omega
    have hmk := mk_packed_fields (x.wall % 2^30) (wrap64 (x.packedSec + s)).toNat x.ext h30 hp
    rw [sec_of_mono hmk.1, hmk.2.2]
    have hwr : wrap64 (x.packedSec + s) = x.packedSec + s :=
      wrap64_eq_self (by omega) (by omega)
    omega
  · next hrange =>
    have hsm : (x.stripMono).hasMono = false := stripMono_hasMono x
    have hsec : (x.stripMono).ext = x.sec := by
      have h1 := stripMono_sec x
      rw [sec_of_not_mono hsm] at h1
      exact h1
    have hno : (Time.mk (x.stripMono).wall (wrap64 ((x.stripMono).ext + s))).hasMono = false := hsm
    rw [sec_of_not_mono hno]
    dsimp only
    rw [hsec, wrap64_eq_self (by omega) (by omega)]

theorem Add_mono_sec_exact {t : Time} (d : Int) (hm : t.hasMono = true)
    (hd : -2^63 ≤ d ∧ d < 2^63) :
    (t.Add d).sec = t.sec + (addNorm t.nsec d).1 := by
  have hns := addNorm_spec t.nsec d (nsec_nonneg t) (nsec_lt_pow t)
  have hn0 := nsec_nonneg t
  have hn1 := nsec_lt_pow t
  unfold Time.Add
  dsimp only
  set p := addNorm t.nsec d with hp0
  have hn : p.2.toNat < 2^30 := by omega
  have hw := wallset_fields t p.2.toNat hn
  set t1 : Time := { t with wall := t.wall / 2^30 * 2^30 + p.2.toNat } with ht1
  have h1m : t1.hasMono = true := hw.1.trans hm
  have h1sec : t1.sec = t.sec := by
    rw [sec_of_mono h1m, sec_of_mono hm, hw.2.1]
  have hsz : -2^62 ≤ p.1 ∧ p.1 ≤ 2^62 := by omega
  have h2sec : (t1.addSec p.1).sec = t.sec + p.1 := by
    rw [addSec_mono_sec_exact p.1 h1m hsz, h1sec]
  set t2 := t1.addSec p.1 with ht2
  split
  · next h2m =>
    split
    · rw [stripMono_sec]
      exact h2sec
    · rw [sec_set_ext_of_mono h2m]
      exact h2sec
  · exact h2sec

/-- C8: `Add` on an instant carrying a monotonic reading is total and never
signals an error.  The wall-clock reading always advances by exactly `d`
nanoseconds.  The result keeps a monotonic reading precisely when the packed
wall seconds stay in the 33-bit range and the offset sum `t.ext + d` stays
inside `int64`; in that case the monotonic reading is `t.ext + d`, and
otherwise the monotonic component is silently dropped and the result is
wall-clock only. -/
theorem add_mono_graceful (t : Time) (d : Int) (hm : t.hasMono = true)
    (hn : t.nsec < 1000000000)
    (hext : -2^63 ≤ t.ext ∧ t.ext < 2^63) (hd : -2^63 ≤ d ∧ d < 2^63) :
    (t.Add d).wallTotal = t.wallTotal + d ∧
    ((t.Add d).hasMono = true ↔
      ((0 ≤ t.packedSec + (t.nsec + d) / 1000000000 ∧
        t.packedSec + (t.nsec + d) / 1000000000 ≤ 2^33 - 1) ∧
       (-2^63 ≤ t.ext + d ∧ t.ext + d < 2^63))) ∧
    ((t.Add d).hasMono = true → (t.Add d).ext = t.ext + d) := by
  have hns := addNorm_spec t.nsec d (nsec_nonneg t) (nsec_lt_pow t)
  have heq := addNorm_eq t.nsec d (nsec_nonneg t) hn
  have hn0 := nsec_nonneg t
  have hpk0 := packedSec_nonneg t
  have hpk1 := packedSec_lt_pow t
  have hwr : wrap64 (t.packedSec + (addNorm t.nsec d).1) =
      t.packedSec + (addNorm t.nsec d).1 :=
    wrap64_eq_self (by omega) (by omega)
  constructor
  · unfold Time.wallTotal
    rw [Add_mono_sec_exact d hm hd, (Add_fields t d).2]
    have hid := hns.2.2
    ring_nf
    omega
  constructor
  · constructor
    · intro hkept
      by_cases hp : 0 ≤ wrap64 (t.packedSec + (addNorm t.nsec d).1) ∧
          wrap64 (t.packedSec + (addNorm t.nsec d).1) ≤ 2^33 - 1
      · by_cases hte : -2^63 ≤ t.ext + d ∧ t.ext + d < 2^63
        · rw [hwr] at hp
          rw [← heq.1]
          exact ⟨hp, hte⟩
        · rw [Add_mono_drop_ext d hm hext hd hp hte] at hkept
          exact absurd hkept (by simp)
      · rw [Add_mono_drop_packed d hm hp] at hkept
        exact absurd hkept (by simp)
    · intro h
      rw [← heq.1] at h
      have hp : 0 ≤ wrap64 (t.packedSec + (addNorm t.nsec d).1) ∧
          wrap64 (t.packedSec + (addNorm t.nsec d).1) ≤ 2^33 - 1 := by
        rw [hwr]
        exact h.1
      exact (Add_mono_kept d hm hp h.2).1
  · intro hkept
    by_cases hp : 0 ≤ wrap64 (t.packedSec + (addNorm t.nsec d).1) ∧
        wrap64 (t.packedSec + (addNorm t.nsec d).1) ≤ 2^33 - 1
    · by_cases hte : -2^63 ≤ t.ext + d ∧ t.ext + d < 2^63
      · exact (Add_mono_kept d hm hp hte).2
      · rw [Add_mono_drop_ext d hm hext hd hp hte] at hkept
        exact absurd hkept (by simp)
    · rw [Add_mono_drop_packed d hm hp] at hkept
      exact absurd hkept (by simp)

/-- Witness for C8: a monotonic instant (packed seconds 100, offset 50) plus
thirty nanoseconds keeps its monotonic reading, advanced exactly. -/
theorem add_mono_graceful_inst :
    (Time.mk (2^63 + 100 * 2^30 + 7) 50).hasMono = true ∧
    ((Time.mk (2^63 + 100 * 2^30 + 7) 50).Add 30).wallTotal
      = (Time.mk (2^63 + 100 * 2^30 + 7) 50).wallTotal + 30 ∧
    ((Time.mk (2^63 + 100 * 2^30 + 7) 50).Add 30).ext = 80 := by
  have h := add_mono_graceful (Time.mk (2^63 + 100 * 2^30 + 7) 50) 30
    (by decide) (by decide) (by decide) (by decide)
  refine ⟨by decide, h.1, ?_⟩
  have := h.2.2 (by decide)
  rw [this]
  decide

theorem Sub_mono_exact {t u : Time} (hm : t.hasMono = true ∧ u.hasMono = true)
    (hext : -2^63 ≤ t.ext ∧ t.ext < 2^63) (huext : -2^63 ≤ u.ext ∧ u.ext < 2^63)
    (h1 : t.Sub u ≠ minDuration) (h2 : t.Sub u ≠ maxDuration) :
    t.Sub u = t.ext - u.ext := by
  have hb : (t.hasMono && u.hasMono) = true := by
    rw [Bool.and_eq_true]
    exact hm
  have hD := wrap64_as_sub (t.ext - u.ext)
  have hDb := wrap64_bounds (t.ext - u.ext)
  unfold Time.Sub at h1 h2 ⊢
  rw [hb] at h1 h2 ⊢
  rw [if_pos rfl] at h1 h2 ⊢
  dsimp only at h1 h2 ⊢
  by_cases hc1 : wrap64 (t.ext - u.ext) < 0 ∧ u.ext < t.ext
  · rw [if_pos hc1] at h2
    exact absurd rfl h2
  · rw [if_neg hc1] at h1 h2 ⊢
    by_cases hc2 : 0 < wrap64 (t.ext - u.ext) ∧ t.ext < u.ext
    · rw [if_pos hc2] at h1
      exact absurd rfl h1
    · rw [if_neg hc2] at h1 h2 ⊢
      simp only [minDuration, maxDuration] at h1 h2
      omega

/-- Counterexample to C1 as stated: both instants carry monotonic readings
and the difference `-1e9` is not saturated, but adding it back to `u` pushes
the packed wall seconds below the 33-bit range, so `Add` drops the monotonic
reading and the comparison falls back to the (here inconsistent) wall
fields: `t.Equal (u.Add (t.Sub u))` is `false`. -/
theorem sub_add_roundtrip_mono_cex :
    (Time.mk hasMonotonic (-1000000000)).hasMono = true ∧
    (Time.mk hasMonotonic 0).hasMono = true ∧
    (Time.mk hasMonotonic (-1000000000)).Sub (Time.mk hasMonotonic 0) ≠ minDuration ∧
    (Time.mk hasMonotonic (-1000000000)).Sub (Time.mk hasMonotonic 0) ≠ maxDuration ∧
    (Time.mk hasMonotonic (-1000000000)).Equal
      ((Time.mk hasMonotonic 0).Add
        ((Time.mk hasMonotonic (-1000000000)).Sub (Time.mk hasMonotonic 0))) = false := by
  decide

/-- C1 amended: for Instants `t`, `u` both carrying monotonic readings (with
`int64`-ranged offsets), if `d = t.Sub u` is not saturated (not the minimum
or maximum Duration) and `u.Add d` still carries a monotonic reading (the
packed wall seconds stay in range), then `u.Add d` equals `t` exactly. -/
theorem sub_add_roundtrip_mono (t u : Time)
    (hm : t.hasMono = true ∧ u.hasMono = true)
    (hext : -2^63 ≤ t.ext ∧ t.ext < 2^63) (huext : -2^63 ≤ u.ext ∧ u.ext < 2^63)
    (hns1 : t.Sub u ≠ minDuration) (hns2 : t.Sub u ≠ maxDuration)
    (hkeep : (u.Add (t.Sub u)).hasMono = true) :
    t.Equal (u.Add (t.Sub u)) = true := by
  have hsub := Sub_mono_exact hm hext huext hns1 hns2
  rw [hsub] at hkeep ⊢
  have hp : 0 ≤ wrap64 (u.packedSec + (addNorm u.nsec (t.ext - u.ext)).1) ∧
      wrap64 (u.packedSec + (addNorm u.nsec (t.ext - u.ext)).1) ≤ 2^33 - 1 := by
    by_contra hp
    rw [Add_mono_drop_packed (t.ext - u.ext) hm.2 hp] at hkeep
    exact absurd hkeep (by simp)
  have hte : -2^63 ≤ u.ext + (t.ext - u.ext) ∧ u.ext + (t.ext - u.ext) < 2^63 := by
    omega
  have hr := Add_mono_kept (t.ext - u.ext) hm.2 hp hte
  have hiff := ((comparisons_dual_path t (u.Add (t.ext - u.ext))).1 ⟨hm.1, hr.1⟩).2.2
  rw [hiff, hr.2]
  omega

/-- Witness for the amended C1: two monotonic instants thirty nanoseconds
apart; the difference adds back exactly. -/
theorem sub_add_roundtrip_mono_inst :
    ((Time.mk (2^63 + 100 * 2^30) 80).hasMono = true ∧
     (Time.mk (2^63 + 100 * 2^30 + 7) 50).hasMono = true) ∧
    (Time.mk (2^63 + 100 * 2^30) 80).Sub (Time.mk (2^63 + 100 * 2^30 + 7) 50)
      ≠ minDuration ∧
    ((Time.mk (2^63 + 100 * 2^30 + 7) 50).Add
      ((Time.mk (2^63 + 100 * 2^30) 80).Sub (Time.mk (2^63 + 100 * 2^30 + 7) 50))).hasMono
      = true ∧
    (Time.mk (2^63 + 100 * 2^30) 80).Equal
      ((Time.mk (2^63 + 100 * 2^30 + 7) 50).Add
        ((Time.mk (2^63 + 100 * 2^30) 80).Sub (Time.mk (2^63 + 100 * 2^30 + 7) 50)))
      = true := by
  refine ⟨by decide, by decide, by decide, ?_⟩
  exact sub_add_roundtrip_mono (Time.mk (2^63 + 100 * 2^30) 80)
    (Time.mk (2^63 + 100 * 2^30 + 7) 50) (by decide) (by decide) (by decide)
    (by decide) (by decide) (by decide)

theorem Add_wallTotal_emod (t : Time) (d : Int) :
    (t.Add d).wallTotal % (2^64 * 1000000000)
      = (t.wallTotal + d) % (2^64 * 1000000000) := by
  have hf := Add_fields t d
  have hns := addNorm_spec t.nsec d (nsec_nonneg t) (nsec_lt_pow t)
  unfold Time.wallTotal
  rw [hf.2]
  have h1 := hf.1
  omega

theorem Equal_wall_iff {t u : Time} (hb : (t.hasMono && u.hasMono) = false)
    (ht : t.nsec < 1000000000) (hu : u.nsec < 1000000000) :
    (t.Equal u = true) ↔ t.wallTotal = u.wallTotal := by
  have h := (comparisons_dual_path t u).2 (by
    intro hcon
    rw [hcon.1, hcon.2] at hb
    simp at hb)
  rw [h.2.2]
  unfold Time.wallTotal
  have h1 := nsec_nonneg t
  have h2 := nsec_nonneg u
  omega

theorem Before_wall_iff {t u : Time} (hb : (t.hasMono && u.hasMono) = false)
    (ht : t.nsec < 1000000000) (hu : u.nsec < 1000000000) :
    (t.Before u = true) ↔ t.wallTotal < u.wallTotal := by
  have h := (comparisons_dual_path t u).2 (by
    intro hcon
    rw [hcon.1, hcon.2] at hb
    simp at hb)
  rw [h.2.1]
  unfold Time.wallTotal
  have h1 := nsec_nonneg t
  have h2 := nsec_nonneg u
  omega

theorem sub_wall_equal_false {t u : Time}
    (hb : (t.hasMono && u.hasMono) = false)
    (htn : t.nsec < 1000000000) (hun : u.nsec < 1000000000)
    (hsecdiff : -2^63 ≤ t.sec - u.sec ∧ t.sec - u.sec ≤ 2^63)
    (hout : t.wallTotal - u.wallTotal > maxDuration ∨
            t.wallTotal - u.wallTotal < minDuration) :
    (u.Add (wrap64 ((t.sec - u.sec) * Second + (t.nsec - u.nsec)))).Equal t
      = false := by
  set d := wrap64 ((t.sec - u.sec) * Second + (t.nsec - u.nsec)) with hd0
  by_contra hEq
  rw [Bool.not_eq_false] at hEq
  have hb2 : ((u.Add d).hasMono && t.hasMono) = false := by
    rcases hth : t.hasMono with _ | _
    · simp [hth]
    · have huf : u.hasMono = false := by
        rcases huh : u.hasMono with _ | _
        · rfl
        · rw [hth, huh] at hb
          simp at hb
      rw [(Add_not_mono huf d).1]
      simp
  have hW := (Equal_wall_iff hb2 (Add_nsec_range hun d).2 htn).mp hEq
  have hAdd := Add_wallTotal_emod u d
  have hw := wrap64_as_sub ((t.sec - u.sec) * Second + (t.nsec - u.nsec))
  have hwb := wrap64_bounds ((t.sec - u.sec) * Second + (t.nsec - u.nsec))
  rw [← hd0] at hw hwb
  have hnt := nsec_nonneg t
  have hnu := nsec_nonneg u
  unfold Time.wallTotal at hW hAdd hout
  unfold Second at hw
  unfold maxDuration minDuration at hout
  omega

/-- Counterexample to C4 as stated: two wall-clock-only instants whose
seconds fields differ by more than `int64` can hold.  The mathematical
difference in nanoseconds vastly exceeds `maxDuration`, but `Sub` returns
the wrapped value `-5e9` — neither the maximum nor the minimum Duration —
because the internal add-back check passes spuriously after the `int64`
seconds wraparound. -/
theorem sub_saturates_cex :
    (Time.mk 0 (2^63 - 5)).wallTotal - (Time.mk 0 (-(2^63))).wallTotal
      > maxDuration ∧
    (Time.mk 0 (2^63 - 5)).Sub (Time.mk 0 (-(2^63))) = -5000000000 ∧
    (Time.mk 0 (2^63 - 5)).Sub (Time.mk 0 (-(2^63))) ≠ maxDuration := by
  refine ⟨by decide, ?_, by decide⟩
  decide

/-- C4 amended: `Sub` saturates to the maximum (minimum) Duration when the
mathematical difference exceeds (falls below) the representable range —
on the monotonic path unconditionally, and on the wall-clock path provided
the seconds difference `t.sec - u.sec` itself does not overflow `int64`
(without that proviso the add-back check can pass spuriously and return a
wrapped value, as the counterexample shows). -/
theorem sub_saturates (t u : Time)
    (hext : -2^63 ≤ t.ext ∧ t.ext < 2^63) (huext : -2^63 ≤ u.ext ∧ u.ext < 2^63)
    (htn : t.nsec < 1000000000) (hun : u.nsec < 1000000000)
    (hsecdiff : -2^63 ≤ t.sec - u.sec ∧ t.sec - u.sec ≤ 2^63) :
    ((t.hasMono && u.hasMono) = true →
       (t.ext - u.ext > maxDuration → t.Sub u = maxDuration) ∧
       (t.ext - u.ext < minDuration → t.Sub u = minDuration)) ∧
    ((t.hasMono && u.hasMono) = false →
       (t.wallTotal - u.wallTotal > maxDuration → t.Sub u = maxDuration) ∧
       (t.wallTotal - u.wallTotal < minDuration → t.Sub u = minDuration)) := by
  constructor
  · intro hb
    have hD := wrap64_as_sub (t.ext - u.ext)
    have hDb := wrap64_bounds (t.ext - u.ext)
    unfold Time.Sub
    rw [hb, if_pos rfl]
    dsimp only
    constructor
    · intro hover
      simp only [maxDuration] at hover ⊢
      rw [if_pos (by omega)]
    · intro hunder
      simp only [minDuration] at hunder ⊢
      rw [if_neg (by omega), if_pos (by omega)]
  · intro hb
    have hXeq : (t.sec - u.sec) * Second + (t.nsec - u.nsec)
        = t.wallTotal - u.wallTotal := by
      unfold Time.wallTotal Second
      ring
    constructor
    · intro hover
      have hEq := sub_wall_equal_false hb htn hun hsecdiff (Or.inl hover)
      have hBf : t.Before u = false := by
        rw [← Bool.not_eq_true, Before_wall_iff hb htn hun]
        unfold maxDuration at hover
        omega
      unfold Time.Sub
      rw [hb]
      rw [if_neg (by simp)]
      dsimp only
      rw [hEq]
      simp only [Bool.false_eq_true, if_false]
      rw [hBf]
      simp
    · intro hunder
      have hEq := sub_wall_equal_false hb htn hun hsecdiff (Or.inr hunder)
      have hBf : t.Before u = true := by
        rw [Before_wall_iff hb htn hun]
        unfold minDuration at hunder
        omega
      unfold Time.Sub
      rw [hb]
      rw [if_neg (by simp)]
      dsimp only
      rw [hEq]
      simp only [Bool.false_eq_true, if_false]
      rw [hBf]
      simp

/-- Witness for the amended C4: a wall-clock pair `2^62` seconds apart
saturates to `maxDuration`, and a monotonic pair with offsets `2^63 - 1`
and `-2^63` saturates to `maxDuration` as well. -/
theorem sub_saturates_inst :
    (Time.mk 0 (2^62)).wallTotal - (Time.mk 0 0).wallTotal > maxDuration ∧
    (Time.mk 0 (2^62)).Sub (Time.mk 0 0) = maxDuration ∧
    (Time.mk hasMonotonic (2^63 - 1)).Sub (Time.mk hasMonotonic (-(2^63)))
      = maxDuration := by
  refine ⟨by decide, ?_, ?_⟩
  · exact ((sub_saturates (Time.mk 0 (2^62)) (Time.mk 0 0) (by decide) (by decide)
      (by decide) (by decide) (by decide)).2 (by decide)).1 (by decide)
  · exact ((sub_saturates (Time.mk hasMonotonic (2^63 - 1))
      (Time.mk hasMonotonic (-(2^63))) (by decide) (by decide) (by decide)
      (by decide) (by decide)).1 (by decide)).1 (by decide)

theorem lessThanHalf_iff {x y : Int} (hx : 0 ≤ x) (hx2 : x < 2^63)
    (hy : 0 ≤ y) (hy2 : y < 2^63) :
    lessThanHalf x y = true ↔ x + x < y := by
  unfold lessThanHalf u64
  rw [decide_eq_true_eq]
  omega

theorem tmod_sign (d m : Int) :
    (0 ≤ d → 0 ≤ Int.tmod d m) ∧ (d < 0 → Int.tmod d m ≤ 0) := by
  constructor
  · intro h
    exact Int.tmod_nonneg m h
  · intro h
    have h1 := neg_tmod (-d) m
    rw [neg_neg] at h1
    have h2 : 0 ≤ Int.tmod (-d) m := Int.tmod_nonneg m (by omega)
    omega

theorem roundNearestAway_spec (d m : Int) (hm : 0 < m) :
    Int.tmod (roundNearestAway d m) m = 0 ∧
    (-m ≤ 2 * (d - roundNearestAway d m) ∧ 2 * (d - roundNearestAway d m) ≤ m) ∧
    ((2 * (d - roundNearestAway d m) = m ∨ 2 * (d - roundNearestAway d m) = -m) →
      (0 ≤ d → d ≤ roundNearestAway d m) ∧ (d < 0 → roundNearestAway d m ≤ d)) := by
  have hid := tmod_tdiv_id d m
  have hb := tmod_bounds d hm
  have hs := tmod_sign d m
  have hdvd : ∀ k : Int, Int.tmod (m * k) m = 0 := fun k =>
    Int.tmod_eq_zero_of_dvd ⟨k, rfl⟩
  unfold roundNearestAway
  dsimp only
  split
  · next hneg =>
    split
    · next hhalf =>
      refine ⟨?_, by omega, by omega⟩
      have : d - Int.tmod d m = m * Int.tdiv d m := by omega
      rw [this]
      exact hdvd _
    · next hhalf =>
      refine ⟨?_, by omega, by omega⟩
      have : d - m - Int.tmod d m = m * (Int.tdiv d m - 1) := by
        rw [Int.mul_sub]
        omega
      rw [this]
      exact hdvd _
  · next hneg =>
    split
    · next hhalf =>
      refine ⟨?_, by omega, by omega⟩
      have : d - Int.tmod d m = m * Int.tdiv d m := by omega
      rw [this]
      exact hdvd _
    · next hhalf =>
      refine ⟨?_, by omega, by omega⟩
      have : d + m - Int.tmod d m = m * (Int.tdiv d m + 1) := by
        rw [Int.mul_add]
        omega
      rw [this]
      exact hdvd _

/-- C5: `Duration.Round` with a non-positive granule returns `d` unchanged;
with a positive granule it returns the multiple of `m` nearest to `d` with
ties broken away from zero (`roundNearestAway`, whose nearest-multiple
properties are part of the statement), except that a nearest multiple
outside the representable range saturates to the maximum (minimum)
Duration. -/
theorem duration_round_correct (d m : Int)
    (hd : -2^63 ≤ d ∧ d < 2^63) (hmr : m < 2^63) :
    (m ≤ 0 → Duration.Round d m = d) ∧
    (0 < m →
      (Int.tmod (roundNearestAway d m) m = 0 ∧
       -m ≤ 2 * (d - roundNearestAway d m) ∧ 2 * (d - roundNearestAway d m) ≤ m ∧
       ((2 * (d - roundNearestAway d m) = m ∨ 2 * (d - roundNearestAway d m) = -m) →
         (0 ≤ d → d ≤ roundNearestAway d m) ∧ (d < 0 → roundNearestAway d m ≤ d))) ∧
      (minDuration ≤ roundNearestAway d m ∧ roundNearestAway d m ≤ maxDuration →
        Duration.Round d m = roundNearestAway d m) ∧
      (maxDuration < roundNearestAway d m → Duration.Round d m = maxDuration) ∧
      (roundNearestAway d m < minDuration → Duration.Round d m = minDuration)) := by
  constructor
  · intro hm
    unfold Duration.Round
    rw [if_pos hm]
  · intro hm
    have hspec := roundNearestAway_spec d m hm
    have hid := tmod_tdiv_id d m
    have hb := tmod_bounds d hm
    have hs := tmod_sign d m
    refine ⟨⟨hspec.1, hspec.2.1.1, hspec.2.1.2, hspec.2.2⟩, ?_⟩
    rcases lt_or_ge d 0 with hneg | hpos
    · -- d < 0
      have hlh := lessThanHalf_iff (x := -Int.tmod d m) (y := m)
        (by omega) (by omega) (by omega) (by omega)
      by_cases hhalf : 2 * (-Int.tmod d m) < m
      · have hRNA : roundNearestAway d m = d - Int.tmod d m := by
          unfold roundNearestAway
          rw [if_pos hneg, if_pos hhalf]
        have hRd : Duration.Round d m = d + -Int.tmod d m := by
          unfold Duration.Round
          rw [if_neg (show ¬ m ≤ 0 by omega), if_pos hneg, if_pos (hlh.mpr (by omega))]
        rw [hRNA]
        simp only [minDuration, maxDuration]
        refine ⟨fun hin => ?_, fun hover => ?_, fun hunder => ?_⟩
        · rw [hRd]
          omega
        · exact absurd hover (by omega)
        · exact absurd hunder (by omega)
      · have hRNA : roundNearestAway d m = d - m - Int.tmod d m := by
          unfold roundNearestAway
          rw [if_pos hneg, if_neg hhalf]
        have hLHf : ¬ lessThanHalf (-Int.tmod d m) m = true := by
          rw [hlh]
          omega
        have hRd : Duration.Round d m =
            (if wrap64 (d - m + -Int.tmod d m) < d
             then wrap64 (d - m + -Int.tmod d m) else minDuration) := by
          unfold Duration.Round
          rw [if_neg (show ¬ m ≤ 0 by omega), if_pos hneg, if_neg hLHf]
        have hw := wrap64_as_sub (d - m + -Int.tmod d m)
        have hwb := wrap64_bounds (d - m + -Int.tmod d m)
        rw [hRNA]
        simp only [minDuration, maxDuration]
        refine ⟨fun hin => ?_, fun hover => ?_, fun hunder => ?_⟩
        · rw [hRd, if_pos (show wrap64 (d - m + -Int.tmod d m) < d by omega)]
          omega
        · exact absurd hover (by omega)
        · rw [hRd, if_neg (show ¬ wrap64 (d - m + -Int.tmod d m) < d by omega)]
          norm_num [minDuration]
    · -- 0 ≤ d
      have hlh := lessThanHalf_iff (x := Int.tmod d m) (y := m)
        (by omega) (by omega) (by omega) (by omega)
      by_cases hhalf : 2 * Int.tmod d m < m
      · have hRNA : roundNearestAway d m = d - Int.tmod d m := by
          unfold roundNearestAway
          rw [if_neg (show ¬ d < 0 by omega), if_pos hhalf]
        have hRd : Duration.Round d m = d - Int.tmod d m := by
          unfold Duration.Round
          rw [if_neg (show ¬ m ≤ 0 by omega), if_neg (show ¬ d < 0 by omega),
            if_pos (hlh.mpr (by omega))]
        rw [hRNA]
        simp only [minDuration, maxDuration]
        refine ⟨fun hin => ?_, fun hover => ?_, fun hunder => ?_⟩
        · rw [hRd]
        · exact absurd hover (by omega)
        · exact absurd hunder (by omega)
      · have hRNA : roundNearestAway d m = d + m - Int.tmod d m := by
          unfold roundNearestAway
          rw [if_neg (show ¬ d < 0 by omega), if_neg hhalf]
        have hLHf : ¬ lessThanHalf (Int.tmod d m) m = true := by
          rw [hlh]
          omega
        have hRd : Duration.Round d m =
            (if d < wrap64 (d + m - Int.tmod d m)
             then wrap64 (d + m - Int.tmod d m) else maxDuration) := by
          unfold Duration.Round
          rw [if_neg (show ¬ m ≤ 0 by omega), if_neg (show ¬ d < 0 by omega),
            if_neg hLHf]
        have hw := wrap64_as_sub (d + m - Int.tmod d m)
        have hwb := wrap64_bounds (d + m - Int.tmod d m)
        rw [hRNA]
        simp only [minDuration, maxDuration]
        refine ⟨fun hin => ?_, fun hover => ?_, fun hunder => ?_⟩
        · rw [hRd, if_pos (show d < wrap64 (d + m - Int.tmod d m) by omega)]
          omega
        · rw [hRd, if_neg (show ¬ d < wrap64 (d + m - Int.tmod d m) by omega)]
          norm_num [maxDuration]
        · exact absurd hunder (by omega)

/-- Witness for C5: rounding `7` to a granule of `2` — a tie — rounds away
from zero to `8`. -/
theorem duration_round_correct_inst :
    roundNearestAway 7 2 = 8 ∧ Duration.Round 7 2 = 8 := by
  have h := duration_round_correct 7 2 (by decide) (by decide)
  have h8 : roundNearestAway 7 2 = 8 := by decide
  refine ⟨h8, ?_⟩
  have := ((h.2 (by decide)).2.1) (by rw [h8]; decide)
  rw [this, h8]

/-- Counterexample to C6 as stated: the instant `-5` seconds (before the
zero reference, not a multiple of the granule) with granularity `10` seconds
has remainder `5e9` nanoseconds — exactly half the granule.  The claim
demands rounding away from zero, to the multiple `-10` seconds; `Round`
instead lands on `0` seconds, the multiple nearer the zero reference. -/
theorem time_round_half_cex :
    (Time.mk 0 (-5)).sec < 0 ∧
    2 * ((Time.mk 0 (-5)).div (10 * Second)).2 = 10 * Second ∧
    (Time.Round (Time.mk 0 (-5)) (10 * Second)).sec = 0 ∧
    ¬ (Time.Round (Time.mk 0 (-5)) (10 * Second)).sec = -10 := by
  refine ⟨by decide, by decide, by decide, by decide⟩

theorem Add_wallTotal_exact_of_not_mono {t : Time} (h : t.hasMono = false)
    (d : Int) (hext : -2^62 ≤ t.ext ∧ t.ext < 2^62)
    (hd : -2^63 ≤ d ∧ d < 2^63) :
    (t.Add d).wallTotal = t.wallTotal + d := by
  have hadd := Add_not_mono h d
  have hf := Add_fields t d
  have hns := addNorm_spec t.nsec d (nsec_nonneg t) (nsec_lt_pow t)
  unfold Time.wallTotal
  rw [hf.2, sec_of_not_mono hadd.1, hadd.2, sec_of_not_mono h]
  have hw := wrap64_as_sub (t.ext + (addNorm t.nsec d).1)
  have hwb := wrap64_bounds (t.ext + (addNorm t.nsec d).1)
  have hn0 := nsec_nonneg t
  have hn1 := nsec_lt_pow t
  omega

/-- C6 amended: at a remainder of exactly half the granularity, `Round`
rounds up — it adds `d - r` (half the granule, in the positive direction) to
the stripped instant — which for an instant before the zero reference is the
multiple of `d` nearer the zero reference, not the farther one (the
counterexample at `-5` seconds lands on `0`, not `-10`). -/
theorem time_round_half_up (t : Time) (d : Int) (hd : 0 < d) (hdr : d < 2^63)
    (hsec : -2^62 ≤ t.sec ∧ t.sec < 2^62)
    (htie : 2 * ((t.stripMono).div d).2 = d) :
    (t.Round d).wallTotal
      = t.wallTotal + (d - ((t.stripMono).div d).2) ∧
    2 * (d - ((t.stripMono).div d).2) = d := by
  have hsm := stripMono_hasMono t
  have hsmsec : t.stripMono.sec = t.sec := stripMono_sec t
  have hsmext : t.stripMono.ext = t.sec := by
    rw [← sec_of_not_mono hsm, hsmsec]
  have hWsm : t.stripMono.wallTotal = t.wallTotal := by
    unfold Time.wallTotal
    rw [hsmsec, stripMono_nsec]
  refine ⟨?_, by omega⟩
  unfold Time.Round
  rw [if_neg (show ¬ d ≤ 0 by omega)]
  dsimp only
  have hLHf : ¬ lessThanHalf ((t.stripMono).div d).2 d = true := by
    rw [lessThanHalf_iff (by omega) (by omega) (by omega) (by omega)]
    omega
  rw [if_neg hLHf]
  have hwr : wrap64 (d - ((t.stripMono).div d).2) = d - ((t.stripMono).div d).2 :=
    wrap64_eq_self (by omega) (by omega)
  rw [hwr, Add_wallTotal_exact_of_not_mono hsm _
    (by rw [hsmext]; exact hsec) (by omega), hWsm]

/-- Witness for the amended C6 at the counterexample instant: `Round` moves
`-5` seconds up by half the granule to `0`. -/
theorem time_round_half_up_inst :
    2 * (((Time.mk 0 (-5)).stripMono).div (10 * Second)).2 = 10 * Second ∧
    (Time.Round (Time.mk 0 (-5)) (10 * Second)).wallTotal
      = (Time.mk 0 (-5)).wallTotal
        + (10 * Second - (((Time.mk 0 (-5)).stripMono).div (10 * Second)).2) := by
  refine ⟨by decide, ?_⟩
  exact (time_round_half_up (Time.mk 0 (-5)) (10 * Second) (by decide) (by decide)
    (by decide) (by decide)).1

end time32
